import Mathlib

/-!
Verification of the stratified question sampler (markdown-parser module:
shuffleArray, selectRandomQuestions) of the interview-assessment app.

The TypeScript source is embedded shallowly:
- ParsedQuestion is the record type of lib/types.ts; weekNumber is modelled
  as a natural number (the parser only ever passes non-negative integers).
- The implicit global random source (Math.random) is modelled by an explicit
  stream g : Nat -> Nat together with a cursor k : Nat.  The i-th draw of
  Math.floor (Math.random () * (i + 1)) is modelled as g k % (i + 1), which
  ranges over exactly the values the source can produce, and the cursor is
  threaded through every call in source order.
- JavaScript number arithmetic on the values the sampler computes is exact
  integer arithmetic except for the ratio products; Math.round (w * r) for
  the fixed ratios r in {0.1, 0.4, 0.5} is modelled as exact
  round-half-up ((num * w) / 10), which agrees with IEEE-double evaluation
  on the magnitudes the sampler is used with.
- Math.floor on a quotient of integers is Int.fdiv, and the JavaScript
  remainder operator is Int.tmod (sign of the dividend).
- Array.prototype.sort with no comparator sorts by the decimal string
  representation of the keys; it is modelled by insertion sort under that
  string order (the keys are pairwise distinct, so every sort agrees).
-/

inductive Difficulty : Type
  | beginner
  | intermediate
  | advanced
deriving DecidableEq, Repr

structure ParsedQuestion : Type where
  id : String
  questionNumber : Nat
  question : String
  keywords : List String
  modelAnswer : String
  difficulty : Difficulty
  weekNumber : Nat
deriving DecidableEq, Repr

inductive InterviewLevel : Type
  | entry
  | experienced
deriving DecidableEq, Repr

/-- Numerator over 10 of beginnerRatio (0.5 for entry, 0.1 for experienced). -/
def beginnerRatioNum : InterviewLevel → Nat
  | .entry => 5
  | .experienced => 1

/-- Numerator over 10 of intermediateRatio (0.4 for both levels). -/
def intermediateRatioNum : InterviewLevel → Nat
  | .entry => 4
  | .experienced => 4

/-- Numerator over 10 of advancedRatio (0.1 for entry, 0.5 for experienced). -/
def advancedRatioNum : InterviewLevel → Nat
  | .entry => 1
  | .experienced => 5

/-- Math.round (a / 10) for an integer a: round half toward positive infinity. -/
def jsRoundTenth (a : Int) : Int := Int.fdiv (a + 5) 10

/-- Exchange of the entries at positions i and j, as performed by the
destructuring assignment in shuffleArray (in bounds in every actual call). -/
def listSwap {α : Type _} (l : List α) (i j : Nat) : List α :=
  match l.get? i, l.get? j with
  | some a, some b => (l.set i b).set j a
  | _, _ => l

/-- Fisher-Yates loop of shuffleArray: for i from n-1 down to 1, draw j
uniformly in [0, i] (modelled as g k % (i + 1)) and swap positions i and j.
The first argument of the recursion is the loop index i. -/
def fyLoop {α : Type _} (g : Nat → Nat) : Nat → List α → Nat → List α × Nat
  | 0, l, k => (l, k)
  | i + 1, l, k => fyLoop g i (listSwap l (i + 1) (g k % (i + 2))) (k + 1)

/-- Embedding of shuffleArray: copies the input and runs the Fisher-Yates
loop, returning the shuffled copy and the advanced random cursor. -/
def shuffleArray {α : Type _} (g : Nat → Nat) (l : List α) (k : Nat) : List α × Nat :=
  fyLoop g (l.length - 1) l k

/-- Week grouping key of a question: q.weekNumber || 99, i.e. the catch-all
key 99 whenever weekNumber is falsy (the number 0 in this model). -/
def weekKey (q : ParsedQuestion) : Nat :=
  if q.weekNumber = 0 then 99 else q.weekNumber

/-- Keys of the byWeek map in insertion order: first occurrence of each week
key in pool order, as produced by questions.forEach over a Map. -/
def insertionKeys (questions : List ParsedQuestion) : List Nat :=
  questions.foldl (fun acc q => if weekKey q ∈ acc then acc else acc ++ [weekKey q]) []

/-- Lexicographic order on character lists, the order JavaScript uses to
compare the decimal strings of the map keys in the default sort. -/
def charListLe : List Char → List Char → Bool
  | [], _ => true
  | _ :: _, [] => false
  | a :: as, b :: bs => if a = b then charListLe as bs else decide (a < b)

/-- Key order of Array.prototype.sort with no comparator: compare the
decimal string representations of the numeric keys. -/
def jsKeyLe (a b : Nat) : Prop :=
  charListLe (Nat.repr a).toList (Nat.repr b).toList = true

instance : DecidableRel jsKeyLe :=
  fun a b => inferInstanceAs (Decidable (charListLe (Nat.repr a).toList (Nat.repr b).toList = true))

/-- Sorted list of distinct week keys, as computed by
Array.from (byWeek.keys ()).sort (). -/
def weeksOf (questions : List ParsedQuestion) : List Nat :=
  List.insertionSort jsKeyLe (insertionKeys questions)

/-- Advanced target of a week: Math.min (bucket length, Math.max (0,
Math.round (weekCount * advancedRatio))). -/
def advancedTargetOf (lvl : InterviewLevel) (aLen : Nat) (weekCount : Int) : Int :=
  min (aLen : Int) (max 0 (jsRoundTenth (weekCount * (advancedRatioNum lvl : Int))))

/-- Intermediate target of a week: Math.min (bucket length, Math.max (0,
Math.round (weekCount * intermediateRatio))). -/
def intermediateTargetOf (lvl : InterviewLevel) (iLen : Nat) (weekCount : Int) : Int :=
  min (iLen : Int) (max 0 (jsRoundTenth (weekCount * (intermediateRatioNum lvl : Int))))

/-- Beginner target of a week: Math.max (0, weekCount - intermediateCount -
advancedCount); beginner absorbs the remainder of the quota. -/
def beginnerTargetOf (weekCount intermediateCount advancedCount : Int) : Int :=
  max 0 (weekCount - intermediateCount - advancedCount)

/-- Per-difficulty picks of one week: shuffle each difficulty bucket and take
the first min (bucket length, target) elements, in source order (beginner,
intermediate, advanced), threading the random cursor. -/
def weekPicks (g : Nat → Nat) (lvl : InterviewLevel) (weekQuestions : List ParsedQuestion)
    (weekCount : Int) (k : Nat) : List ParsedQuestion × Nat :=
  let beginnerQuestions := weekQuestions.filter (fun q => decide (q.difficulty = Difficulty.beginner))
  let intermediateQuestions := weekQuestions.filter (fun q => decide (q.difficulty = Difficulty.intermediate))
  let advancedQuestions := weekQuestions.filter (fun q => decide (q.difficulty = Difficulty.advanced))
  let advancedCount := advancedTargetOf lvl advancedQuestions.length weekCount
  let intermediateCount := intermediateTargetOf lvl intermediateQuestions.length weekCount
  let beginnerCount := beginnerTargetOf weekCount intermediateCount advancedCount
  let sb := shuffleArray g beginnerQuestions k
  let si := shuffleArray g intermediateQuestions sb.2
  let sa := shuffleArray g advancedQuestions si.2
  (sb.1.take (min (beginnerQuestions.length : Int) beginnerCount).toNat
      ++ si.1.take (min (intermediateQuestions.length : Int) intermediateCount).toNat
      ++ sa.1.take (min (advancedQuestions.length : Int) advancedCount).toNat,
    sa.2)

/-- Selection of one week: the per-difficulty picks, then, if still short of
weekCount, backfill from the rest of the week pool (any difficulty, ids not
already selected), shuffled. -/
def weekSelect (g : Nat → Nat) (lvl : InterviewLevel) (weekQuestions : List ParsedQuestion)
    (weekCount : Int) (k : Nat) : List ParsedQuestion × Nat :=
  let p := weekPicks g lvl weekQuestions weekCount k
  if (p.1.length : Int) < weekCount then
    let ids := p.1.map (fun q => q.id)
    let sr := shuffleArray g (weekQuestions.filter (fun q => decide (¬ q.id ∈ ids))) p.2
    (p.1 ++ sr.1.take (weekCount - (p.1.length : Int)).toNat, sr.2)
  else p

/-- Quota of the week at iteration index idx: perWeek plus one extra for the
first remainder weeks. -/
def weekQuota (perWeek remainder : Int) (idx : Nat) : Int :=
  perWeek + (if (idx : Int) < remainder then 1 else 0)

/-- Loop of selectRandomQuestions over the sorted week keys: select each
week group (the pool filtered to that week key) with its quota and
concatenate, threading the random cursor. -/
def weeksLoop (g : Nat → Nat) (lvl : InterviewLevel) (questions : List ParsedQuestion)
    (perWeek remainder : Int) : List Nat → Nat → Nat → List ParsedQuestion × Nat
  | [], _, k => ([], k)
  | w :: ws, idx, k =>
    let sel := weekSelect g lvl (questions.filter (fun q => decide (weekKey q = w)))
      (weekQuota perWeek remainder idx) k
    let rest := weeksLoop g lvl questions perWeek remainder ws (idx + 1) sel.2
    (sel.1 ++ rest.1, rest.2)

/-- Embedding of selectRandomQuestions: group by week key, sort the keys in
JavaScript default string order, allocate per-week quotas, select each week,
globally backfill from unselected questions if still short of count, and
shuffle the final selection. -/
def selectRandomQuestions (g : Nat → Nat) (questions : List ParsedQuestion) (count : Int)
    (interviewLevel : InterviewLevel) (k : Nat) : List ParsedQuestion × Nat :=
  let weeks := weeksOf questions
  let numWeeks := weeks.length
  if numWeeks = 0 then ([], k) else
  let perWeek := Int.fdiv count (numWeeks : Int)
  let remainder := Int.tmod count (numWeeks : Int)
  let sel := weeksLoop g interviewLevel questions perWeek remainder weeks 0 k
  let sel2 :=
    if (sel.1.length : Int) < count then
      let ids := sel.1.map (fun q => q.id)
      let sr := shuffleArray g (questions.filter (fun q => decide (¬ q.id ∈ ids))) sel.2
      (sel.1 ++ sr.1.take (count - (sel.1.length : Int)).toNat, sr.2)
    else sel
  shuffleArray g sel2.1 sel2.2

/-- Total quota handed to n consecutive weeks starting at iteration index idx
(specification-side summation used to reason about the loop). -/
def quotaSum (perWeek remainder : Int) : Nat → Nat → Nat
  | 0, _ => 0
  | n + 1, idx => (weekQuota perWeek remainder idx).toNat + quotaSum perWeek remainder n (idx + 1)

/-- Total advanced rounded target over n consecutive weeks starting at index
idx (specification-side summation used to reason about the loop). -/
def advSum (lvl : InterviewLevel) (perWeek remainder : Int) : Nat → Nat → Nat
  | 0, _ => 0
  | n + 1, idx =>
    (jsRoundTenth (weekQuota perWeek remainder idx * (advancedRatioNum lvl : Int))).toNat
      + advSum lvl perWeek remainder n (idx + 1)

/-- Concrete question constructor used in the closed evaluations. -/
def sampleQ (i : String) (d : Difficulty) (w : Nat) : ParsedQuestion :=
  ⟨i, 1, "q", [], "a", d, w⟩

/-- Concrete all-zero random stream used in the closed evaluations. -/
def zeroStream : Nat → Nat := fun _ => 0

/-- Concrete abundant pool used in the closed evaluations: one week holding
six beginner, five intermediate and six advanced questions, enough for every
computed target at quota ten. -/
def abundantPool : List ParsedQuestion :=
  [sampleQ "b1" Difficulty.beginner 1, sampleQ "b2" Difficulty.beginner 1,
    sampleQ "b3" Difficulty.beginner 1, sampleQ "b4" Difficulty.beginner 1,
    sampleQ "b5" Difficulty.beginner 1, sampleQ "b6" Difficulty.beginner 1,
    sampleQ "i1" Difficulty.intermediate 1, sampleQ "i2" Difficulty.intermediate 1,
    sampleQ "i3" Difficulty.intermediate 1, sampleQ "i4" Difficulty.intermediate 1,
    sampleQ "i5" Difficulty.intermediate 1,
    sampleQ "a1" Difficulty.advanced 1, sampleQ "a2" Difficulty.advanced 1,
    sampleQ "a3" Difficulty.advanced 1, sampleQ "a4" Difficulty.advanced 1,
    sampleQ "a5" Difficulty.advanced 1, sampleQ "a6" Difficulty.advanced 1]

/-! Permutation facts about the shuffle primitive. -/

theorem set_self_eq {α : Type _} :
    ∀ (l : List α) (i : Nat) (h : i < l.length), l.set i (l.get ⟨i, h⟩) = l
  | _ :: _, 0, _ => rfl
  | a :: l, i + 1, h => by
    simp only [List.set, List.get]
    exact congrArg (a :: ·) (set_self_eq l i (Nat.lt_of_succ_lt_succ h))

theorem cons_set_perm {α : Type _} (c : α) :
    ∀ (l : List α) (m : Nat) (h : m < l.length), (l.get ⟨m, h⟩ :: l.set m c).Perm (c :: l)
  | _ :: _, 0, _ => List.Perm.swap _ _ _
  | a :: l, m + 1, h => by
    have ih := cons_set_perm c l m (Nat.lt_of_succ_lt_succ h)
    simp only [List.get, List.set]
    exact ((List.Perm.swap _ _ _).trans (ih.cons a)).trans (List.Perm.swap _ _ _)

theorem listSwap_perm {α : Type _} (l : List α) (i j : Nat) : (listSwap l i j).Perm l := by
  unfold listSwap
  cases hi : l.get? i with
  | none => exact List.Perm.refl l
  | some a =>
    cases hj : l.get? j with
    | none => exact List.Perm.refl l
    | some b =>
      obtain ⟨hi', ha⟩ := List.get?_eq_some.mp hi
      obtain ⟨hj', hb⟩ := List.get?_eq_some.mp hj
      show ((l.set i b).set j a).Perm l
      by_cases hij : i = j
      · subst hij
        have hab : a = b := by rw [← ha, ← hb]
        subst hab
        rw [List.set_set, ← ha, set_self_eq l i hi']
      · have hL1j : j < (l.set i b).length := by simpa using hj'
        have hget : (l.set i b).get ⟨j, hL1j⟩ = b := by
          simp only [List.get_eq_getElem, List.getElem_set, hij, if_false, ← hb]
        have key1 := cons_set_perm a (l.set i b) j hL1j
        rw [hget] at key1
        have key2 := cons_set_perm b l i hi'
        rw [ha] at key2
        exact (key1.trans key2).cons_inv

theorem fyLoop_perm {α : Type _} (g : Nat → Nat) :
    ∀ (i : Nat) (l : List α) (k : Nat), ((fyLoop g i l k).1).Perm l
  | 0, l, _ => List.Perm.refl l
  | i + 1, l, k => (fyLoop_perm g i _ (k + 1)).trans (listSwap_perm l (i + 1) _)

theorem shuffleArray_perm {α : Type _} (g : Nat → Nat) (l : List α) (k : Nat) :
    ((shuffleArray g l k).1).Perm l :=
  fyLoop_perm g (l.length - 1) l k

theorem shuffleArray_coe {α : Type _} (g : Nat → Nat) (l : List α) (k : Nat) :
    (((shuffleArray g l k).1 : List α) : Multiset α) = (l : Multiset α) :=
  Multiset.coe_eq_coe.mpr (shuffleArray_perm g l k)

theorem shuffleArray_length {α : Type _} (g : Nat → Nat) (l : List α) (k : Nat) :
    ((shuffleArray g l k).1).length = l.length :=
  (shuffleArray_perm g l k).length_eq

/-! Multiset bounds for the per-week selection. -/

theorem take_coe_le {α : Type _} (l : List α) (n : Nat) :
    ((l.take n : List α) : Multiset α) ≤ (l : Multiset α) :=
  Multiset.coe_le.mpr (List.take_sublist n l).subperm

theorem shuffle_take_coe_le {α : Type _} (g : Nat → Nat) (l : List α) (k n : Nat) :
    (((shuffleArray g l k).1.take n : List α) : Multiset α) ≤ (l : Multiset α) :=
  (take_coe_le _ n).trans (le_of_eq (shuffleArray_coe g l k))

theorem difficulty_cases (d : Difficulty) :
    d = Difficulty.beginner ∨ d = Difficulty.intermediate ∨ d = Difficulty.advanced := by
  cases d <;> simp

theorem bucket_partition (wq : List ParsedQuestion) :
    Multiset.filter (fun q => q.difficulty = Difficulty.beginner) (wq : Multiset ParsedQuestion)
      + Multiset.filter (fun q => q.difficulty = Difficulty.intermediate)
          (wq : Multiset ParsedQuestion)
      + Multiset.filter (fun q => q.difficulty = Difficulty.advanced)
          (wq : Multiset ParsedQuestion)
      = (wq : Multiset ParsedQuestion) := by
  rw [add_assoc, Multiset.filter_add_filter]
  have h1 : Multiset.filter
      (fun q => q.difficulty = Difficulty.intermediate ∧ q.difficulty = Difficulty.advanced)
      (wq : Multiset ParsedQuestion) = 0 := by
    rw [Multiset.filter_eq_nil]
    rintro q _ ⟨h2, h3⟩
    rw [h2] at h3
    exact Difficulty.noConfusion h3
  rw [h1, add_zero, Multiset.filter_add_filter]
  have h2 : Multiset.filter
      (fun q => q.difficulty = Difficulty.beginner ∧
        (q.difficulty = Difficulty.intermediate ∨ q.difficulty = Difficulty.advanced))
      (wq : Multiset ParsedQuestion) = 0 := by
    rw [Multiset.filter_eq_nil]
    rintro q _ ⟨h3, h4 | h4⟩ <;> rw [h3] at h4 <;> exact Difficulty.noConfusion h4
  rw [h2, add_zero, Multiset.filter_eq_self]
  intro q _
  exact difficulty_cases q.difficulty

theorem weekPicks_le (g : Nat → Nat) (lvl : InterviewLevel) (wq : List ParsedQuestion)
    (wc : Int) (k : Nat) :
    (((weekPicks g lvl wq wc k).1 : List ParsedQuestion) : Multiset ParsedQuestion) ≤ ↑wq := by
  simp only [weekPicks]
  rw [← Multiset.coe_add, ← Multiset.coe_add]
  have hb : (((shuffleArray g
        (wq.filter (fun q => decide (q.difficulty = Difficulty.beginner))) k).1.take
          (min ((wq.filter (fun q => decide (q.difficulty = Difficulty.beginner))).length : Int)
            (beginnerTargetOf wc
              (intermediateTargetOf lvl
                (wq.filter (fun q => decide (q.difficulty = Difficulty.intermediate))).length wc)
              (advancedTargetOf lvl
                (wq.filter (fun q => decide (q.difficulty = Difficulty.advanced))).length
                wc))).toNat :
        List ParsedQuestion) : Multiset ParsedQuestion) ≤
      Multiset.filter (fun q => q.difficulty = Difficulty.beginner) ↑wq :=
    le_of_le_of_eq (shuffle_take_coe_le g _ k _)
      (Multiset.filter_coe (fun q => q.difficulty = Difficulty.beginner) wq).symm
  have hi : ∀ (k2 : Nat), (((shuffleArray g
        (wq.filter (fun q => decide (q.difficulty = Difficulty.intermediate))) k2).1.take
          (min ((wq.filter (fun q => decide (q.difficulty = Difficulty.intermediate))).length : Int)
            (intermediateTargetOf lvl
              (wq.filter (fun q => decide (q.difficulty = Difficulty.intermediate))).length
              wc)).toNat :
        List ParsedQuestion) : Multiset ParsedQuestion) ≤
      Multiset.filter (fun q => q.difficulty = Difficulty.intermediate) ↑wq :=
    fun k2 => le_of_le_of_eq (shuffle_take_coe_le g _ k2 _)
      (Multiset.filter_coe (fun q => q.difficulty = Difficulty.intermediate) wq).symm
  have ha : ∀ (k2 : Nat), (((shuffleArray g
        (wq.filter (fun q => decide (q.difficulty = Difficulty.advanced))) k2).1.take
          (min ((wq.filter (fun q => decide (q.difficulty = Difficulty.advanced))).length : Int)
            (advancedTargetOf lvl
              (wq.filter (fun q => decide (q.difficulty = Difficulty.advanced))).length
              wc)).toNat :
        List ParsedQuestion) : Multiset ParsedQuestion) ≤
      Multiset.filter (fun q => q.difficulty = Difficulty.advanced) ↑wq :=
    fun k2 => le_of_le_of_eq (shuffle_take_coe_le g _ k2 _)
      (Multiset.filter_coe (fun q => q.difficulty = Difficulty.advanced) wq).symm
  exact le_of_le_of_eq (add_le_add (add_le_add hb (hi _)) (ha _)) (bucket_partition wq)

theorem weekSelect_le (g : Nat → Nat) (lvl : InterviewLevel) (wq : List ParsedQuestion)
    (wc : Int) (k : Nat) :
    (((weekSelect g lvl wq wc k).1 : List ParsedQuestion) : Multiset ParsedQuestion) ≤ ↑wq := by
  simp only [weekSelect]
  by_cases hlt : (((weekPicks g lvl wq wc k).1.length : Nat) : Int) < wc
  · rw [if_pos hlt]
    rw [← Multiset.coe_add]
    have h1 : ((weekPicks g lvl wq wc k).1 : Multiset ParsedQuestion) ≤
        Multiset.filter
          (fun q => q.id ∈ (weekPicks g lvl wq wc k).1.map (fun q => q.id)) ↑wq :=
      Multiset.le_filter.mpr ⟨weekPicks_le g lvl wq wc k,
        fun q hq => List.mem_map_of_mem _ (Multiset.mem_coe.mp hq)⟩
    have h2 : (((shuffleArray g
          (wq.filter (fun q =>
            decide (¬ q.id ∈ (weekPicks g lvl wq wc k).1.map (fun q => q.id))))
          (weekPicks g lvl wq wc k).2).1.take
            (wc - ((weekPicks g lvl wq wc k).1.length : Int)).toNat : List ParsedQuestion) :
          Multiset ParsedQuestion) ≤
        Multiset.filter
          (fun q => ¬ q.id ∈ (weekPicks g lvl wq wc k).1.map (fun q => q.id)) ↑wq := by
      rw [Multiset.filter_coe]
      exact shuffle_take_coe_le g _ _ _
    exact le_of_le_of_eq (add_le_add h1 h2) (Multiset.filter_add_not _ _)
  · rw [if_neg hlt]
    exact weekPicks_le g lvl wq wc k

theorem weekSelect_mem (g : Nat → Nat) (lvl : InterviewLevel) (wq : List ParsedQuestion)
    (wc : Int) (k : Nat) (q : ParsedQuestion) (hq : q ∈ (weekSelect g lvl wq wc k).1) :
    q ∈ wq :=
  Multiset.mem_coe.mp (Multiset.mem_of_le (weekSelect_le g lvl wq wc k) (Multiset.mem_coe.mpr hq))

theorem weekSelect_card_le (g : Nat → Nat) (lvl : InterviewLevel) (wq : List ParsedQuestion)
    (wc : Int) (k : Nat) : (weekSelect g lvl wq wc k).1.length ≤ wq.length := by
  have h := Multiset.card_le_card (weekSelect_le g lvl wq wc k)
  simpa using h

/-! Arithmetic of the rounded ratio targets. -/

theorem jsRoundTenth_ediv (a : Int) : jsRoundTenth a = (a + 5) / 10 :=
  Int.fdiv_eq_ediv (a + 5) (by norm_num)

theorem jsRoundTenth_nonpos {a : Int} (h : a ≤ 0) : jsRoundTenth a ≤ 0 := by
  rw [jsRoundTenth_ediv]
  omega

theorem ratio_pair_le (lvl : InterviewLevel) (w : Int) (h : 0 ≤ w) :
    max 0 (jsRoundTenth (w * (intermediateRatioNum lvl : Int)))
      + max 0 (jsRoundTenth (w * (advancedRatioNum lvl : Int))) ≤ w := by
  cases lvl <;>
    simp only [intermediateRatioNum, advancedRatioNum, jsRoundTenth_ediv, Nat.cast_ofNat,
      Nat.cast_one] <;> omega

theorem weekPicks_length_le (g : Nat → Nat) (lvl : InterviewLevel) (wq : List ParsedQuestion)
    (wc : Int) (k : Nat) (h : 0 ≤ wc) :
    ((weekPicks g lvl wq wc k).1.length : Int) ≤ wc := by
  have hsum := ratio_pair_le lvl wc h
  simp only [weekPicks, List.length_append, List.length_take, shuffleArray_length,
    advancedTargetOf, intermediateTargetOf, beginnerTargetOf]
  omega

theorem weekSelect_length_le (g : Nat → Nat) (lvl : InterviewLevel) (wq : List ParsedQuestion)
    (wc : Int) (k : Nat) (h : 0 ≤ wc) :
    ((weekSelect g lvl wq wc k).1.length : Int) ≤ wc := by
  have hp := weekPicks_length_le g lvl wq wc k h
  simp only [weekSelect]
  by_cases hlt : (((weekPicks g lvl wq wc k).1.length : Nat) : Int) < wc
  · rw [if_pos hlt]
    simp only [List.length_append, List.length_take, shuffleArray_length]
    omega
  · rw [if_neg hlt]
    exact hp

theorem target_eq_zero_of_nonpos (lvl : InterviewLevel) (len : Nat) (wc : Int) (h : wc ≤ 0) :
    advancedTargetOf lvl len wc = 0 ∧ intermediateTargetOf lvl len wc = 0 := by
  have ha : wc * ((advancedRatioNum lvl : Nat) : Int) ≤ 0 :=
    mul_nonpos_iff.mpr (Or.inr ⟨h, Nat.cast_nonneg _⟩)
  have hi : wc * ((intermediateRatioNum lvl : Nat) : Int) ≤ 0 :=
    mul_nonpos_iff.mpr (Or.inr ⟨h, Nat.cast_nonneg _⟩)
  have hja := jsRoundTenth_nonpos ha
  have hji := jsRoundTenth_nonpos hi
  unfold advancedTargetOf intermediateTargetOf
  omega

theorem weekPicks_nil_of_nonpos (g : Nat → Nat) (lvl : InterviewLevel) (wq : List ParsedQuestion)
    (wc : Int) (k : Nat) (h : wc ≤ 0) : (weekPicks g lvl wq wc k).1 = [] := by
  have haT := (target_eq_zero_of_nonpos lvl
    (wq.filter (fun q => decide (q.difficulty = Difficulty.advanced))).length wc h).1
  have hiT := (target_eq_zero_of_nonpos lvl
    (wq.filter (fun q => decide (q.difficulty = Difficulty.intermediate))).length wc h).2
  rw [← List.length_eq_zero]
  simp only [weekPicks, List.length_append, List.length_take, shuffleArray_length, haT, hiT,
    beginnerTargetOf]
  omega

theorem weekSelect_nil_of_nonpos (g : Nat → Nat) (lvl : InterviewLevel) (wq : List ParsedQuestion)
    (wc : Int) (k : Nat) (h : wc ≤ 0) : (weekSelect g lvl wq wc k).1 = [] := by
  have hp := weekPicks_nil_of_nonpos g lvl wq wc k h
  have hlt : ¬ (((weekPicks g lvl wq wc k).1.length : Nat) : Int) < wc := by
    rw [hp]
    simp only [List.length_nil, Nat.cast_zero]
    omega
  simp only [weekSelect]
  rw [if_neg hlt]
  exact hp

/-! Facts about the week-key list. -/

theorem foldl_keys_mem : ∀ (qs : List ParsedQuestion) (acc : List Nat) (x : Nat),
    (x ∈ qs.foldl (fun acc q => if weekKey q ∈ acc then acc else acc ++ [weekKey q]) acc ↔
      x ∈ acc ∨ ∃ q ∈ qs, weekKey q = x)
  | [], acc, x => by simp
  | q :: qs, acc, x => by
    simp only [List.foldl_cons]
    rw [foldl_keys_mem qs _ x, List.exists_mem_cons_iff]
    by_cases h : weekKey q ∈ acc
    · rw [if_pos h]
      have himp : weekKey q = x → x ∈ acc := fun he => he ▸ h
      tauto
    · rw [if_neg h]
      simp only [List.mem_append, List.mem_singleton]
      have hsymm : weekKey q = x ↔ x = weekKey q := eq_comm
      tauto

theorem foldl_keys_nodup : ∀ (qs : List ParsedQuestion) (acc : List Nat), acc.Nodup →
    (qs.foldl (fun acc q => if weekKey q ∈ acc then acc else acc ++ [weekKey q]) acc).Nodup
  | [], _, h => h
  | q :: qs, acc, h => by
    simp only [List.foldl_cons]
    refine foldl_keys_nodup qs _ ?_
    by_cases hm : weekKey q ∈ acc
    · rwa [if_pos hm]
    · rw [if_neg hm, List.nodup_append]
      exact ⟨h, List.nodup_singleton _, fun a ha hb => hm ((List.mem_singleton.mp hb) ▸ ha)⟩

theorem mem_insertionKeys (qs : List ParsedQuestion) (x : Nat) :
    x ∈ insertionKeys qs ↔ ∃ q ∈ qs, weekKey q = x := by
  unfold insertionKeys
  rw [foldl_keys_mem qs [] x]
  simp

theorem insertionKeys_nodup (qs : List ParsedQuestion) : (insertionKeys qs).Nodup :=
  foldl_keys_nodup qs [] List.nodup_nil

theorem weeksOf_perm (qs : List ParsedQuestion) : (weeksOf qs).Perm (insertionKeys qs) :=
  List.perm_insertionSort _ _

theorem weeksOf_nodup (qs : List ParsedQuestion) : (weeksOf qs).Nodup :=
  (weeksOf_perm qs).nodup_iff.mpr (insertionKeys_nodup qs)

theorem mem_weeksOf (qs : List ParsedQuestion) (x : Nat) :
    x ∈ weeksOf qs ↔ ∃ q ∈ qs, weekKey q = x := by
  rw [(weeksOf_perm qs).mem_iff]
  exact mem_insertionKeys qs x

/-! Facts about the loop over the sorted weeks. -/

theorem weeksLoop_le_filter (g : Nat → Nat) (lvl : InterviewLevel) (qs : List ParsedQuestion)
    (pw r : Int) :
    ∀ (ws : List Nat) (idx k : Nat), ws.Nodup →
      (((weeksLoop g lvl qs pw r ws idx k).1 : List ParsedQuestion) : Multiset ParsedQuestion) ≤
        Multiset.filter (fun q => weekKey q ∈ ws) ↑qs
  | [], idx, k, _ => by
    simp only [weeksLoop, Multiset.coe_nil]
    exact Multiset.zero_le _
  | w :: ws, idx, k, hnd => by
    have hnd1 : ¬ w ∈ ws := (List.nodup_cons.mp hnd).1
    have hnd2 : ws.Nodup := (List.nodup_cons.mp hnd).2
    have h1 : ((weekSelect g lvl (qs.filter (fun q => decide (weekKey q = w)))
          (weekQuota pw r idx) k).1 : Multiset ParsedQuestion) ≤
        Multiset.filter (fun q => weekKey q = w) ↑qs :=
      le_of_le_of_eq (weekSelect_le g lvl _ _ k)
        (Multiset.filter_coe (fun q => weekKey q = w) qs).symm
    have ihle := weeksLoop_le_filter g lvl qs pw r ws (idx + 1)
      (weekSelect g lvl (qs.filter (fun q => decide (weekKey q = w)))
        (weekQuota pw r idx) k).2 hnd2
    have hzero : Multiset.filter (fun q => weekKey q = w ∧ weekKey q ∈ ws)
        (↑qs : Multiset ParsedQuestion) = 0 := by
      rw [Multiset.filter_eq_nil]
      rintro q _ ⟨hqa, hqb⟩
      exact hnd1 (hqa ▸ hqb)
    have hcomb : Multiset.filter (fun q => weekKey q = w) (↑qs : Multiset ParsedQuestion)
        + Multiset.filter (fun q => weekKey q ∈ ws) ↑qs
        = Multiset.filter (fun q => weekKey q ∈ w :: ws) ↑qs := by
      rw [Multiset.filter_add_filter, hzero, add_zero]
      exact Multiset.filter_congr (fun q _ => (List.mem_cons).symm)
    simp only [weeksLoop]
    rw [← Multiset.coe_add]
    exact le_of_le_of_eq (add_le_add h1 ihle) hcomb

theorem weeksLoop_le (g : Nat → Nat) (lvl : InterviewLevel) (qs : List ParsedQuestion)
    (pw r : Int) (ws : List Nat) (idx k : Nat) (hnd : ws.Nodup) :
    (((weeksLoop g lvl qs pw r ws idx k).1 : List ParsedQuestion) : Multiset ParsedQuestion) ≤
      ↑qs :=
  (weeksLoop_le_filter g lvl qs pw r ws idx k hnd).trans (Multiset.filter_le _ _)

theorem weeksLoop_length_le (g : Nat → Nat) (lvl : InterviewLevel) (qs : List ParsedQuestion)
    (pw r : Int) (hpw : 0 ≤ pw) :
    ∀ (ws : List Nat) (idx k : Nat),
      (weeksLoop g lvl qs pw r ws idx k).1.length ≤ quotaSum pw r ws.length idx
  | [], _, _ => by simp [weeksLoop, quotaSum]
  | w :: ws, idx, k => by
    have hq : (0 : Int) ≤ weekQuota pw r idx := by
      unfold weekQuota
      split <;> omega
    have h1 := weekSelect_length_le g lvl (qs.filter (fun q => decide (weekKey q = w)))
      (weekQuota pw r idx) k hq
    have h2 := weeksLoop_length_le g lvl qs pw r hpw ws (idx + 1)
      (weekSelect g lvl (qs.filter (fun q => decide (weekKey q = w)))
        (weekQuota pw r idx) k).2
    simp only [weeksLoop, List.length_append, List.length_cons, quotaSum]
    omega

theorem quotaSum_eq (pw r : Int) (hpw : 0 ≤ pw) :
    ∀ (n idx : Nat), quotaSum pw r n idx = n * pw.toNat + min (r - idx).toNat n
  | 0, idx => by simp [quotaSum]
  | n + 1, idx => by
    have ih := quotaSum_eq pw r hpw n (idx + 1)
    simp only [quotaSum, weekQuota, ih, Nat.succ_mul]
    split <;> omega

theorem quotaSum_total (c : Int) (n : Nat) (hc : 0 ≤ c) (hn : 0 < n) :
    quotaSum (Int.fdiv c (n : Int)) (Int.tmod c (n : Int)) n 0 = c.toNat := by
  have hn' : (0 : Int) < (n : Int) := by exact_mod_cast hn
  rw [Int.fdiv_eq_ediv c (le_of_lt hn'), Int.tmod_eq_emod hc (le_of_lt hn')]
  have hq : 0 ≤ c / (n : Int) := Int.ediv_nonneg hc (le_of_lt hn')
  have hm0 : 0 ≤ c % (n : Int) := Int.emod_nonneg c (ne_of_gt hn')
  have hmn : c % (n : Int) < (n : Int) := Int.emod_lt_of_pos c hn'
  have hdm : (n : Int) * (c / (n : Int)) + c % (n : Int) = c := Int.ediv_add_emod c (n : Int)
  rw [quotaSum_eq _ _ hq n 0]
  have hcast : ((n * (c / (n : Int)).toNat : Nat) : Int) = c - c % (n : Int) := by
    push_cast [Int.toNat_of_nonneg hq]
    omega
  omega

theorem weekSelect_length_pos (g : Nat → Nat) (lvl : InterviewLevel) (wq : List ParsedQuestion)
    (wc : Int) (k : Nat) (hne : wq ≠ []) (hwc : 1 ≤ wc) :
    0 < (weekSelect g lvl wq wc k).1.length := by
  have hwqlen : 0 < wq.length := List.length_pos.mpr hne
  by_cases hp : (weekPicks g lvl wq wc k).1 = []
  · have hlt : (((weekPicks g lvl wq wc k).1.length : Nat) : Int) < wc := by
      rw [hp]
      simp only [List.length_nil, Nat.cast_zero]
      omega
    simp only [weekSelect]
    rw [if_pos hlt]
    simp only [List.length_append, List.length_take, shuffleArray_length, hp, List.length_nil,
      List.map_nil]
    have hfilter : wq.filter (fun q => decide (¬ q.id ∈ ([] : List String))) = wq := by
      simp
    rw [hfilter]
    omega
  · have hplen : 0 < (weekPicks g lvl wq wc k).1.length := List.length_pos.mpr hp
    simp only [weekSelect]
    by_cases hlt : (((weekPicks g lvl wq wc k).1.length : Nat) : Int) < wc
    · rw [if_pos hlt]
      simp only [List.length_append]
      omega
    · rw [if_neg hlt]
      exact hplen

theorem weeksLoop_covers (g : Nat → Nat) (lvl : InterviewLevel) (qs : List ParsedQuestion)
    (pw r : Int) (hpw : 1 ≤ pw) :
    ∀ (ws : List Nat) (idx k : Nat) (w : Nat), w ∈ ws →
      qs.filter (fun q => decide (weekKey q = w)) ≠ [] →
      ∃ q ∈ (weeksLoop g lvl qs pw r ws idx k).1, weekKey q = w
  | [], _, _, _, hw, _ => absurd hw (List.not_mem_nil _)
  | w' :: ws, idx, k, w, hw, hne => by
    rcases List.mem_cons.mp hw with hww | hww
    · subst hww
      have hq : (1 : Int) ≤ weekQuota pw r idx := by
        unfold weekQuota
        split <;> omega
      have hpos := weekSelect_length_pos g lvl
        (qs.filter (fun q => decide (weekKey q = w))) (weekQuota pw r idx) k hne hq
      obtain ⟨q, hq1⟩ := List.exists_mem_of_length_pos hpos
      have hq2 : q ∈ qs.filter (fun q => decide (weekKey q = w)) :=
        weekSelect_mem g lvl _ _ k q hq1
      have hq3 : weekKey q = w := by
        have := (List.mem_filter.mp hq2).2
        simpa using this
      refine ⟨q, ?_, hq3⟩
      simp only [weeksLoop, List.mem_append]
      exact Or.inl hq1
    · obtain ⟨q, hq1, hq2⟩ := weeksLoop_covers g lvl qs pw r hpw ws (idx + 1)
        (weekSelect g lvl (qs.filter (fun q => decide (weekKey q = w')))
          (weekQuota pw r idx) k).2 w hww hne
      refine ⟨q, ?_, hq2⟩
      simp only [weeksLoop, List.mem_append]
      exact Or.inr hq1

/-! Global bounds for the full sampler. -/

theorem append_backfill_le (g : Nat → Nat) (sel pool : List ParsedQuestion) (k m : Nat)
    (hsel : ((sel : List ParsedQuestion) : Multiset ParsedQuestion) ≤ ↑pool) :
    ((sel ++ (shuffleArray g
        (pool.filter (fun q => decide (¬ q.id ∈ sel.map (fun q => q.id)))) k).1.take m :
        List ParsedQuestion) : Multiset ParsedQuestion) ≤ ↑pool := by
  rw [← Multiset.coe_add]
  have h1 : ((sel : List ParsedQuestion) : Multiset ParsedQuestion) ≤
      Multiset.filter (fun q => q.id ∈ sel.map (fun q => q.id)) ↑pool :=
    Multiset.le_filter.mpr ⟨hsel, fun q hq => List.mem_map_of_mem _ (Multiset.mem_coe.mp hq)⟩
  have h2 : (((shuffleArray g
        (pool.filter (fun q => decide (¬ q.id ∈ sel.map (fun q => q.id)))) k).1.take m :
        List ParsedQuestion) : Multiset ParsedQuestion) ≤
      Multiset.filter (fun q => ¬ q.id ∈ sel.map (fun q => q.id)) ↑pool := by
    rw [Multiset.filter_coe]
    exact shuffle_take_coe_le g _ _ _
  exact le_of_le_of_eq (add_le_add h1 h2) (Multiset.filter_add_not _ _)

theorem select_le (g : Nat → Nat) (pool : List ParsedQuestion) (c : Int)
    (lvl : InterviewLevel) (k : Nat) :
    (((selectRandomQuestions g pool c lvl k).1 : List ParsedQuestion) :
      Multiset ParsedQuestion) ≤ ↑pool := by
  simp only [selectRandomQuestions]
  by_cases h0 : (weeksOf pool).length = 0
  · rw [if_pos h0]
    simp only [Multiset.coe_nil]
    exact Multiset.zero_le _
  · rw [if_neg h0]
    rw [shuffleArray_coe]
    have hsel : (((weeksLoop g lvl pool (Int.fdiv c ((weeksOf pool).length : Int))
          (Int.tmod c ((weeksOf pool).length : Int)) (weeksOf pool) 0 k).1 :
          List ParsedQuestion) : Multiset ParsedQuestion) ≤ ↑pool :=
      weeksLoop_le g lvl pool _ _ (weeksOf pool) 0 k (weeksOf_nodup pool)
    by_cases hlt : (((weeksLoop g lvl pool (Int.fdiv c ((weeksOf pool).length : Int))
        (Int.tmod c ((weeksOf pool).length : Int)) (weeksOf pool) 0 k).1.length : Nat) : Int) < c
    · rw [if_pos hlt]
      exact append_backfill_le g _ pool _ _ hsel
    · rw [if_neg hlt]
      exact hsel

theorem select_mem (g : Nat → Nat) (pool : List ParsedQuestion) (c : Int)
    (lvl : InterviewLevel) (k : Nat) (q : ParsedQuestion)
    (hq : q ∈ (selectRandomQuestions g pool c lvl k).1) : q ∈ pool :=
  Multiset.mem_coe.mp (Multiset.mem_of_le (select_le g pool c lvl k) (Multiset.mem_coe.mpr hq))

theorem ids_le_of_le (sel pool : List ParsedQuestion)
    (h : ((sel : List ParsedQuestion) : Multiset ParsedQuestion) ≤ ↑pool) :
    ((sel.map (fun q => q.id) : List String) : Multiset String) ≤
      ↑(pool.map (fun q => q.id)) := by
  have := Multiset.map_le_map (f := fun q : ParsedQuestion => q.id) h
  rwa [Multiset.map_coe, Multiset.map_coe] at this

theorem ids_nodup_of_le (sel pool : List ParsedQuestion)
    (h : ((sel : List ParsedQuestion) : Multiset ParsedQuestion) ≤ ↑pool)
    (hids : (pool.map (fun q => q.id)).Nodup) : (sel.map (fun q => q.id)).Nodup := by
  have hle := ids_le_of_le sel pool h
  have := Multiset.nodup_of_le hle (Multiset.coe_nodup.mpr hids)
  exact Multiset.coe_nodup.mp this

theorem filter_not_mem_length (pool : List ParsedQuestion) (ids : List String)
    (hpool : (pool.map (fun q => q.id)).Nodup) (hnodup : ids.Nodup)
    (hle : ((ids : List String) : Multiset String) ≤ ↑(pool.map (fun q => q.id))) :
    (pool.filter (fun q => decide (¬ q.id ∈ ids))).length + ids.length = pool.length := by
  have hsplit := Multiset.filter_add_not (fun q : ParsedQuestion => q.id ∈ ids)
    (↑pool : Multiset ParsedQuestion)
  have hcard := congrArg Multiset.card hsplit
  rw [Multiset.card_add, Multiset.coe_card] at hcard
  have hA : Multiset.card
      (Multiset.filter (fun q : ParsedQuestion => q.id ∈ ids) (↑pool : Multiset ParsedQuestion))
      = ids.length := by
    have hmapped : Multiset.filter (fun x => x ∈ ids)
        (Multiset.map (fun q : ParsedQuestion => q.id) (↑pool : Multiset ParsedQuestion))
        = Multiset.map (fun q : ParsedQuestion => q.id)
          (Multiset.filter (fun q : ParsedQuestion => q.id ∈ ids) ↑pool) :=
      Multiset.filter_map (fun x => x ∈ ids) (fun q : ParsedQuestion => q.id) ↑pool
    have hPn : (Multiset.map (fun q : ParsedQuestion => q.id)
        (↑pool : Multiset ParsedQuestion)).Nodup := by
      rw [Multiset.map_coe]
      exact Multiset.coe_nodup.mpr hpool
    have heq : Multiset.filter (fun x => x ∈ ids)
        (Multiset.map (fun q : ParsedQuestion => q.id) (↑pool : Multiset ParsedQuestion))
        = (ids : Multiset String) := by
      rw [(Multiset.Nodup.ext (Multiset.Nodup.filter _ hPn) (Multiset.coe_nodup.mpr hnodup))]
      intro x
      constructor
      · intro hx
        exact (Multiset.mem_filter.mp hx).2
      · intro hx
        refine Multiset.mem_filter.mpr ⟨?_, hx⟩
        have : x ∈ ((ids : List String) : Multiset String) := hx
        rw [Multiset.map_coe]
        exact Multiset.mem_of_le hle this
    have hcards := congrArg Multiset.card heq
    rw [hmapped, Multiset.card_map, Multiset.coe_card] at hcards
    exact hcards
  have hB : Multiset.card
      (Multiset.filter (fun q : ParsedQuestion => ¬ q.id ∈ ids)
        (↑pool : Multiset ParsedQuestion))
      = (pool.filter (fun q => decide (¬ q.id ∈ ids))).length := by
    rw [Multiset.filter_coe, Multiset.coe_card]
  omega

theorem weeksOf_eq_nil (pool : List ParsedQuestion) : (weeksOf pool).length = 0 ↔ pool = [] := by
  constructor
  · intro h
    by_contra hne
    obtain ⟨q, hq⟩ := List.exists_mem_of_ne_nil pool hne
    have hmem : weekKey q ∈ weeksOf pool := (mem_weeksOf pool _).mpr ⟨q, hq, rfl⟩
    rw [List.length_eq_zero] at h
    rw [h] at hmem
    exact List.not_mem_nil _ hmem
  · intro h
    subst h
    rfl

/-- C1: for every pool with pairwise distinct ids, every count at least zero
and either interview level, the result of selectRandomQuestions has length
exactly min (count, pool size): equal to count when count fits in the pool,
capped at the pool size otherwise, and never above count. -/
theorem spec_c1 (g : Nat → Nat) (pool : List ParsedQuestion) (c : Int) (lvl : InterviewLevel)
    (k : Nat) (hids : (pool.map (fun q => q.id)).Nodup) (hc : 0 ≤ c) :
    (selectRandomQuestions g pool c lvl k).1.length = min c.toNat pool.length := by
  by_cases h0 : (weeksOf pool).length = 0
  · have hpool : pool = [] := (weeksOf_eq_nil pool).mp h0
    subst hpool
    simp only [selectRandomQuestions]
    rw [if_pos h0]
    simp
  · have hnpos : 0 < (weeksOf pool).length := Nat.pos_of_ne_zero h0
    have hncast : (0 : Int) < ((weeksOf pool).length : Int) := by exact_mod_cast hnpos
    have hpw0 : 0 ≤ Int.fdiv c ((weeksOf pool).length : Int) := by
      rw [Int.fdiv_eq_ediv c (le_of_lt hncast)]
      exact Int.ediv_nonneg hc (le_of_lt hncast)
    simp only [selectRandomQuestions]
    rw [if_neg h0]
    set sel := weeksLoop g lvl pool (Int.fdiv c ((weeksOf pool).length : Int))
      (Int.tmod c ((weeksOf pool).length : Int)) (weeksOf pool) 0 k with hsel_def
    have hlen_le : sel.1.length ≤ c.toNat := by
      have h1 := weeksLoop_length_le g lvl pool (Int.fdiv c ((weeksOf pool).length : Int))
        (Int.tmod c ((weeksOf pool).length : Int)) hpw0 (weeksOf pool) 0 k
      rw [quotaSum_total c (weeksOf pool).length hc hnpos] at h1
      rw [hsel_def]
      exact h1
    have hselle : ((sel.1 : List ParsedQuestion) : Multiset ParsedQuestion) ≤ ↑pool := by
      rw [hsel_def]
      exact weeksLoop_le g lvl pool _ _ (weeksOf pool) 0 k (weeksOf_nodup pool)
    have hlenpool : sel.1.length ≤ pool.length := by
      have := Multiset.card_le_card hselle
      simpa using this
    by_cases hlt : ((sel.1.length : Nat) : Int) < c
    · rw [if_pos hlt]
      have hids' : (sel.1.map (fun q => q.id)).Nodup := ids_nodup_of_le sel.1 pool hselle hids
      have hle' := ids_le_of_le sel.1 pool hselle
      have hflen := filter_not_mem_length pool (sel.1.map (fun q => q.id)) hids hids' hle'
      rw [List.length_map] at hflen
      simp only [shuffleArray_length, List.length_append, List.length_take, shuffleArray_length]
      omega
    · rw [if_neg hlt]
      rw [shuffleArray_length]
      omega

theorem spec_c1_witness :
    (([sampleQ "a" Difficulty.beginner 1, sampleQ "b" Difficulty.intermediate 1,
        sampleQ "c" Difficulty.advanced 2].map (fun q => q.id)).Nodup)
    ∧ (0 : Int) ≤ 2
    ∧ (selectRandomQuestions zeroStream
        [sampleQ "a" Difficulty.beginner 1, sampleQ "b" Difficulty.intermediate 1,
          sampleQ "c" Difficulty.advanced 2] 2 InterviewLevel.entry 0).1.length
      = min ((2 : Int)).toNat
        ([sampleQ "a" Difficulty.beginner 1, sampleQ "b" Difficulty.intermediate 1,
          sampleQ "c" Difficulty.advanced 2].length) :=
  ⟨by decide, by decide,
    spec_c1 zeroStream _ 2 InterviewLevel.entry 0 (by decide) (by decide)⟩

/-- C2 counterexample: on a pool that violates id uniqueness (two beginner
questions share the id x), a single call of selectRandomQuestions returns two
elements with the same id, so the no-duplicates-within-one-result guarantee
fails for pools with duplicated ids. -/
theorem spec_c2_counterexample :
    ¬ ((selectRandomQuestions zeroStream
        [sampleQ "x" Difficulty.beginner 1, sampleQ "x" Difficulty.beginner 1] 2
        InterviewLevel.entry 0).1.map (fun q => q.id)).Nodup := by decide

/-- C2 (amended): for every pool whose ids are pairwise distinct, every count
and every level, the sequence returned by selectRandomQuestions never contains
two elements with the same id. -/
theorem spec_c2 (g : Nat → Nat) (pool : List ParsedQuestion) (c : Int) (lvl : InterviewLevel)
    (k : Nat) (hids : (pool.map (fun q => q.id)).Nodup) :
    ((selectRandomQuestions g pool c lvl k).1.map (fun q => q.id)).Nodup :=
  ids_nodup_of_le _ pool (select_le g pool c lvl k) hids

theorem spec_c2_witness :
    (([sampleQ "a" Difficulty.beginner 1, sampleQ "b" Difficulty.beginner 1].map
        (fun q => q.id)).Nodup)
    ∧ ((selectRandomQuestions zeroStream
        [sampleQ "a" Difficulty.beginner 1, sampleQ "b" Difficulty.beginner 1] 2
        InterviewLevel.entry 0).1.map (fun q => q.id)).Nodup :=
  ⟨by decide, spec_c2 zeroStream _ 2 InterviewLevel.entry 0 (by decide)⟩

/-- C3: the per-week stratification uses the fixed ratio profiles (entry
0.5/0.4/0.1, experienced 0.1/0.4/0.5 as numerators over ten), computes the
advanced and intermediate targets as the bucket-clamped rounded products and
the beginner target as the clamped remainder, and the selected week sequence
after the within-week backfill never exceeds the week quota nor the number of
questions of the week. -/
theorem spec_c3 (g : Nat → Nat) (lvl : InterviewLevel) (wq : List ParsedQuestion) (wc : Int)
    (k : Nat) (h : 0 ≤ wc) :
    (beginnerRatioNum InterviewLevel.entry = 5 ∧ intermediateRatioNum InterviewLevel.entry = 4
      ∧ advancedRatioNum InterviewLevel.entry = 1)
    ∧ (beginnerRatioNum InterviewLevel.experienced = 1
      ∧ intermediateRatioNum InterviewLevel.experienced = 4
      ∧ advancedRatioNum InterviewLevel.experienced = 5)
    ∧ advancedTargetOf lvl
        (wq.filter (fun q => decide (q.difficulty = Difficulty.advanced))).length wc
      = min ((wq.filter (fun q => decide (q.difficulty = Difficulty.advanced))).length : Int)
        (max 0 (jsRoundTenth (wc * (advancedRatioNum lvl : Int))))
    ∧ intermediateTargetOf lvl
        (wq.filter (fun q => decide (q.difficulty = Difficulty.intermediate))).length wc
      = min ((wq.filter (fun q => decide (q.difficulty = Difficulty.intermediate))).length : Int)
        (max 0 (jsRoundTenth (wc * (intermediateRatioNum lvl : Int))))
    ∧ (∀ ic ac : Int, beginnerTargetOf wc ic ac = max 0 (wc - ic - ac))
    ∧ ((weekSelect g lvl wq wc k).1.length : Int) ≤ wc
    ∧ (weekSelect g lvl wq wc k).1.length ≤ wq.length :=
  ⟨⟨rfl, rfl, rfl⟩, ⟨rfl, rfl, rfl⟩, rfl, rfl, fun _ _ => rfl,
    weekSelect_length_le g lvl wq wc k h, weekSelect_card_le g lvl wq wc k⟩

theorem spec_c3_witness :
    ((weekSelect zeroStream InterviewLevel.entry
        [sampleQ "a" Difficulty.beginner 1, sampleQ "b" Difficulty.advanced 1] 2 0).1.length :
        Int) ≤ 2
    ∧ (weekSelect zeroStream InterviewLevel.entry
        [sampleQ "a" Difficulty.beginner 1, sampleQ "b" Difficulty.advanced 1] 2 0).1.length
      ≤ ([sampleQ "a" Difficulty.beginner 1, sampleQ "b" Difficulty.advanced 1]).length :=
  ⟨(spec_c3 zeroStream InterviewLevel.entry
      [sampleQ "a" Difficulty.beginner 1, sampleQ "b" Difficulty.advanced 1] 2 0
      (by decide)).2.2.2.2.2.1,
    (spec_c3 zeroStream InterviewLevel.entry
      [sampleQ "a" Difficulty.beginner 1, sampleQ "b" Difficulty.advanced 1] 2 0
      (by decide)).2.2.2.2.2.2⟩

theorem weeksLoop_nil_of_quota_nonpos (g : Nat → Nat) (lvl : InterviewLevel)
    (qs : List ParsedQuestion) (pw r : Int) (hq : ∀ idx : Nat, weekQuota pw r idx ≤ 0) :
    ∀ (ws : List Nat) (idx k : Nat), (weeksLoop g lvl qs pw r ws idx k).1 = []
  | [], _, _ => rfl
  | w :: ws, idx, k => by
    have h1 := weekSelect_nil_of_nonpos g lvl (qs.filter (fun q => decide (weekKey q = w)))
      (weekQuota pw r idx) k (hq idx)
    have h2 := weeksLoop_nil_of_quota_nonpos g lvl qs pw r hq ws (idx + 1)
      (weekSelect g lvl (qs.filter (fun q => decide (weekKey q = w))) (weekQuota pw r idx) k).2
    show (weekSelect g lvl (qs.filter (fun q => decide (weekKey q = w)))
        (weekQuota pw r idx) k).1
      ++ (weeksLoop g lvl qs pw r ws (idx + 1)
        (weekSelect g lvl (qs.filter (fun q => decide (weekKey q = w)))
          (weekQuota pw r idx) k).2).1 = []
    rw [h1, h2]
    rfl

/-- C7: selectRandomQuestions is total and returns the empty sequence without
an error whenever the pool is empty or the requested count is not positive
(including negative counts). -/
theorem spec_c7 (g : Nat → Nat) (pool : List ParsedQuestion) (c : Int) (lvl : InterviewLevel)
    (k : Nat) (h : pool = [] ∨ c ≤ 0) : (selectRandomQuestions g pool c lvl k).1 = [] := by
  by_cases h0 : (weeksOf pool).length = 0
  · simp only [selectRandomQuestions]
    rw [if_pos h0]
  · have hc : c ≤ 0 := by
      rcases h with hp | hcle
      · exact absurd ((weeksOf_eq_nil pool).mpr hp) h0
      · exact hcle
    have hnpos : 0 < (weeksOf pool).length := Nat.pos_of_ne_zero h0
    have hncast : (0 : Int) < ((weeksOf pool).length : Int) := by exact_mod_cast hnpos
    have hquota : ∀ idx : Nat, weekQuota (Int.fdiv c ((weeksOf pool).length : Int))
        (Int.tmod c ((weeksOf pool).length : Int)) idx ≤ 0 := by
      intro idx
      rcases lt_or_eq_of_le hc with hlt | heq
      · have hpw : Int.fdiv c ((weeksOf pool).length : Int) < 0 := by
          rw [Int.fdiv_eq_ediv c (le_of_lt hncast)]
          exact Int.ediv_neg' hlt hncast
        unfold weekQuota
        split <;> omega
      · subst heq
        rw [Int.zero_fdiv, Int.zero_tmod]
        unfold weekQuota
        split <;> omega
    have hnil := weeksLoop_nil_of_quota_nonpos g lvl pool
      (Int.fdiv c ((weeksOf pool).length : Int)) (Int.tmod c ((weeksOf pool).length : Int))
      hquota (weeksOf pool) 0 k
    simp only [selectRandomQuestions]
    rw [if_neg h0]
    have hlt2 : ¬ (((weeksLoop g lvl pool (Int.fdiv c ((weeksOf pool).length : Int))
        (Int.tmod c ((weeksOf pool).length : Int)) (weeksOf pool) 0 k).1.length : Nat) : Int)
        < c := by
      rw [hnil]
      simp only [List.length_nil, Nat.cast_zero]
      omega
    rw [if_neg hlt2, hnil]
    rfl

theorem spec_c7_witness :
    (([] : List ParsedQuestion) = [] ∨ (5 : Int) ≤ 0)
    ∧ (selectRandomQuestions zeroStream [] 5 InterviewLevel.entry 0).1 = []
    ∧ ([sampleQ "a" Difficulty.beginner 1] = [] ∨ (-3 : Int) ≤ 0)
    ∧ (selectRandomQuestions zeroStream [sampleQ "a" Difficulty.beginner 1] (-3)
        InterviewLevel.experienced 0).1 = [] :=
  ⟨Or.inl rfl, spec_c7 zeroStream [] 5 InterviewLevel.entry 0 (Or.inl rfl),
    Or.inr (by decide), spec_c7 zeroStream [sampleQ "a" Difficulty.beginner 1] (-3)
      InterviewLevel.experienced 0 (Or.inr (by decide))⟩

/-- C8: the shuffle primitive returns a permutation (same multiset of
elements, hence same length) of its input, the embedding is a pure function
of its arguments (inputs are immutable values), and every element of a
selectRandomQuestions result is an element of the input pool with all its
fields intact. -/
theorem spec_c8 {α : Type} (g : Nat → Nat) (l : List α) (k : Nat) (g2 : Nat → Nat)
    (pool : List ParsedQuestion) (c : Int) (lvl : InterviewLevel) (k2 : Nat) :
    ((shuffleArray g l k).1.Perm l ∧ (shuffleArray g l k).1.length = l.length)
      ∧ ∀ q ∈ (selectRandomQuestions g2 pool c lvl k2).1, q ∈ pool :=
  ⟨⟨shuffleArray_perm g l k, shuffleArray_length g l k⟩,
    fun q hq => select_mem g2 pool c lvl k2 q hq⟩

theorem spec_c8_witness :
    ((shuffleArray zeroStream ["p", "q"] 0).1.Perm ["p", "q"]
      ∧ (shuffleArray zeroStream ["p", "q"] 0).1.length = (["p", "q"] : List String).length)
    ∧ sampleQ "b" Difficulty.beginner 10 ∈
        [sampleQ "a" Difficulty.beginner 2, sampleQ "b" Difficulty.beginner 10] :=
  ⟨(spec_c8 zeroStream ["p", "q"] 0 zeroStream
      [sampleQ "a" Difficulty.beginner 2, sampleQ "b" Difficulty.beginner 10] 1
      InterviewLevel.entry 0).1,
    (spec_c8 zeroStream ["p", "q"] 0 zeroStream
      [sampleQ "a" Difficulty.beginner 2, sampleQ "b" Difficulty.beginner 10] 1
      InterviewLevel.entry 0).2
      (sampleQ "b" Difficulty.beginner 10) (by decide)⟩

/-- C9: a question whose weekNumber is the falsy number 0 is assigned the
synthetic catch-all key 99 and merged with questions whose weekNumber is
literally 99; a pool all of whose questions carry weekNumber 0 is grouped as
the single week 99, not as week 0. -/
theorem spec_c9 :
    (∀ q : ParsedQuestion, q.weekNumber = 0 → weekKey q = 99)
    ∧ (∀ q : ParsedQuestion, q.weekNumber = 99 → weekKey q = 99)
    ∧ (∀ pool : List ParsedQuestion, pool ≠ [] → (∀ q ∈ pool, q.weekNumber = 0) →
        weeksOf pool = [99]) := by
  refine ⟨fun q hq => by simp [weekKey, hq], fun q hq => by simp [weekKey, hq], ?_⟩
  have haux : ∀ (qs : List ParsedQuestion) (acc : List Nat), (∀ q ∈ qs, weekKey q = 99) →
      99 ∈ acc →
      qs.foldl (fun acc q => if weekKey q ∈ acc then acc else acc ++ [weekKey q]) acc = acc := by
    intro qs
    induction qs with
    | nil => intro acc _ _; rfl
    | cons q qs ih =>
      intro acc hall99 h99
      simp only [List.foldl_cons]
      rw [hall99 q (List.mem_cons_self q qs), if_pos h99]
      exact ih acc (fun q2 hq2 => hall99 q2 (List.mem_cons_of_mem q hq2)) h99
  intro pool hne hall
  have hkeys : insertionKeys pool = [99] := by
    cases pool with
    | nil => exact absurd rfl hne
    | cons q qs =>
      unfold insertionKeys
      simp only [List.foldl_cons]
      have hk : weekKey q = 99 := by
        simp [weekKey, hall q (List.mem_cons_self q qs)]
      rw [hk, if_neg (List.not_mem_nil 99), List.nil_append]
      exact haux qs [99] (fun q2 hq2 => by
        simp [weekKey, hall q2 (List.mem_cons_of_mem q hq2)]) (List.mem_singleton.mpr rfl)
  unfold weeksOf
  rw [hkeys]
  rfl

theorem spec_c9_witness :
    weekKey (sampleQ "a" Difficulty.beginner 0) = 99
    ∧ weekKey (sampleQ "b" Difficulty.beginner 99) = 99
    ∧ weeksOf [sampleQ "a" Difficulty.beginner 0] = [99] :=
  ⟨spec_c9.1 (sampleQ "a" Difficulty.beginner 0) rfl,
    spec_c9.2.1 (sampleQ "b" Difficulty.beginner 99) rfl,
    spec_c9.2.2 [sampleQ "a" Difficulty.beginner 0] (by decide) (by decide)⟩

/-- C10: the only nondeterminism of the sampler is the random stream; two
runs that consume identical random draws produce identical outputs, i.e. the
embedded sampler is a deterministic function of pool, count, level, cursor
and stream. -/
theorem spec_c10 (g1 g2 : Nat → Nat) (pool : List ParsedQuestion) (c : Int)
    (lvl : InterviewLevel) (k : Nat) (h : ∀ n, g1 n = g2 n) :
    selectRandomQuestions g1 pool c lvl k = selectRandomQuestions g2 pool c lvl k := by
  have hg : g1 = g2 := funext h
  rw [hg]

theorem spec_c10_witness :
    selectRandomQuestions zeroStream [sampleQ "a" Difficulty.beginner 1] 1 InterviewLevel.entry 0
      = selectRandomQuestions (fun n => n * 0) [sampleQ "a" Difficulty.beginner 1] 1
        InterviewLevel.entry 0 :=
  spec_c10 zeroStream (fun n => n * 0) [sampleQ "a" Difficulty.beginner 1] 1
    InterviewLevel.entry 0 (fun n => by simp [zeroStream])

/-! Order facts for the JavaScript default sort. -/

theorem charListLe_total : ∀ (as bs : List Char), charListLe as bs = true ∨ charListLe bs as = true
  | [], _ => Or.inl rfl
  | _ :: _, [] => Or.inr rfl
  | a :: as, b :: bs => by
    by_cases hab : a = b
    · subst hab
      simp only [charListLe, eq_self_iff_true, if_true]
      exact charListLe_total as bs
    · rcases lt_or_gt_of_ne hab with h | h
      · left
        simp only [charListLe, if_neg hab]
        exact decide_eq_true h
      · right
        simp only [charListLe, if_neg (Ne.symm hab)]
        exact decide_eq_true h

theorem charListLe_trans : ∀ (as bs cs : List Char), charListLe as bs = true →
    charListLe bs cs = true → charListLe as cs = true
  | [], _, _, _, _ => rfl
  | _ :: _, [], _, h1, _ => by simp [charListLe] at h1
  | _ :: _, _ :: _, [], _, h2 => by simp [charListLe] at h2
  | a :: as, b :: bs, c :: cs, h1, h2 => by
    simp only [charListLe] at h1 h2 ⊢
    by_cases hab : a = b
    · subst hab
      rw [if_pos rfl] at h1
      by_cases hbc : a = c
      · subst hbc
        rw [if_pos rfl] at h2 ⊢
        exact charListLe_trans as bs cs h1 h2
      · rw [if_neg hbc] at h2 ⊢
        exact h2
    · rw [if_neg hab] at h1
      have hab2 : a < b := of_decide_eq_true h1
      by_cases hbc : b = c
      · subst hbc
        rw [if_neg hab]
        exact h1
      · rw [if_neg hbc] at h2
        have hbc2 : b < c := of_decide_eq_true h2
        have hac : a < c := lt_trans hab2 hbc2
        rw [if_neg (ne_of_lt hac)]
        exact decide_eq_true hac

theorem sorted_weeksOf (qs : List ParsedQuestion) : List.Sorted jsKeyLe (weeksOf qs) :=
  @List.sorted_insertionSort Nat jsKeyLe _
    ⟨fun a b => charListLe_total (Nat.repr a).toList (Nat.repr b).toList⟩
    ⟨fun _ _ _ h1 h2 => charListLe_trans _ _ _ h1 h2⟩
    (insertionKeys qs)

/-- C4 counterexample: for a pool with weeks 2 and 10 the groups are
enumerated as [10, 2] (the JavaScript default sort compares decimal strings),
which is not ascending by weekNumber, and with count 1 the single quota goes
to week 10 rather than to week 2, so the claimed ascending enumeration is
refuted. -/
theorem spec_c4_counterexample :
    weeksOf [sampleQ "a" Difficulty.beginner 2, sampleQ "b" Difficulty.beginner 10] = [10, 2]
    ∧ ¬ List.Sorted (fun x y => x ≤ y)
        (weeksOf [sampleQ "a" Difficulty.beginner 2, sampleQ "b" Difficulty.beginner 10])
    ∧ (selectRandomQuestions zeroStream
        [sampleQ "a" Difficulty.beginner 2, sampleQ "b" Difficulty.beginner 10] 1
        InterviewLevel.entry 0).1 = [sampleQ "b" Difficulty.beginner 10] :=
  ⟨by decide, by decide, by decide⟩

/-- C4 (amended): for every nonempty pool and count at least zero, the week
groups are iterated in a fixed deterministic order, namely ascending in the
lexicographic order of the decimal string representations of the week keys
(the JavaScript default sort, not ascending numeric weekNumber); the week at
iteration index idx receives quota perWeek plus one exactly when
idx < remainder, where perWeek = floor (count / numWeeks) and
remainder = count mod numWeeks; and the quotas over all weeks sum to count. -/
theorem spec_c4 (pool : List ParsedQuestion) (c : Int) (hc : 0 ≤ c) (hne : pool ≠ []) :
    List.Sorted jsKeyLe (weeksOf pool)
    ∧ (weeksOf pool).Nodup
    ∧ (∀ w : Nat, w ∈ weeksOf pool ↔ ∃ q ∈ pool, weekKey q = w)
    ∧ (∀ idx : Nat, weekQuota (Int.fdiv c ((weeksOf pool).length : Int))
        (Int.tmod c ((weeksOf pool).length : Int)) idx
        = Int.fdiv c ((weeksOf pool).length : Int)
          + (if (idx : Int) < Int.tmod c ((weeksOf pool).length : Int) then 1 else 0))
    ∧ quotaSum (Int.fdiv c ((weeksOf pool).length : Int))
        (Int.tmod c ((weeksOf pool).length : Int)) (weeksOf pool).length 0 = c.toNat := by
  have hnpos : 0 < (weeksOf pool).length :=
    Nat.pos_of_ne_zero (fun h => hne ((weeksOf_eq_nil pool).mp h))
  exact ⟨sorted_weeksOf pool, weeksOf_nodup pool, mem_weeksOf pool,
    fun _ => rfl, quotaSum_total c (weeksOf pool).length hc hnpos⟩

theorem spec_c4_witness :
    List.Sorted jsKeyLe
      (weeksOf [sampleQ "a" Difficulty.beginner 2, sampleQ "b" Difficulty.beginner 10])
    ∧ quotaSum
        (Int.fdiv 3 ((weeksOf [sampleQ "a" Difficulty.beginner 2,
          sampleQ "b" Difficulty.beginner 10]).length : Int))
        (Int.tmod 3 ((weeksOf [sampleQ "a" Difficulty.beginner 2,
          sampleQ "b" Difficulty.beginner 10]).length : Int))
        (weeksOf [sampleQ "a" Difficulty.beginner 2,
          sampleQ "b" Difficulty.beginner 10]).length 0 = (3 : Int).toNat :=
  ⟨(spec_c4 [sampleQ "a" Difficulty.beginner 2, sampleQ "b" Difficulty.beginner 10] 3
      (by decide) (by decide)).1,
    (spec_c4 [sampleQ "a" Difficulty.beginner 2, sampleQ "b" Difficulty.beginner 10] 3
      (by decide) (by decide)).2.2.2.2⟩

/-- C5: whenever the requested count is at least the number of week groups
(and every group is nonempty, which holds by construction of the grouping),
the result of selectRandomQuestions contains at least one question from every
week group. -/
theorem spec_c5 (g : Nat → Nat) (pool : List ParsedQuestion) (c : Int) (lvl : InterviewLevel)
    (k : Nat) (hc : ((weeksOf pool).length : Int) ≤ c) (hne : pool ≠ []) :
    ∀ w ∈ weeksOf pool, ∃ q ∈ (selectRandomQuestions g pool c lvl k).1, weekKey q = w := by
  intro w hw
  have h0 : ¬ (weeksOf pool).length = 0 := fun h => hne ((weeksOf_eq_nil pool).mp h)
  have hnpos : 0 < (weeksOf pool).length := Nat.pos_of_ne_zero h0
  have hncast : (0 : Int) < ((weeksOf pool).length : Int) := by exact_mod_cast hnpos
  have hpw : 1 ≤ Int.fdiv c ((weeksOf pool).length : Int) := by
    rw [Int.fdiv_eq_ediv c (le_of_lt hncast), Int.le_ediv_iff_mul_le hncast]
    omega
  obtain ⟨q0, hq0, hkq0⟩ := (mem_weeksOf pool w).mp hw
  have hfil : pool.filter (fun q => decide (weekKey q = w)) ≠ [] := by
    have hq0f : q0 ∈ pool.filter (fun q => decide (weekKey q = w)) :=
      List.mem_filter.mpr ⟨hq0, by simp [hkq0]⟩
    intro hcon
    rw [hcon] at hq0f
    exact List.not_mem_nil _ hq0f
  obtain ⟨q, hq1, hq2⟩ := weeksLoop_covers g lvl pool
    (Int.fdiv c ((weeksOf pool).length : Int)) (Int.tmod c ((weeksOf pool).length : Int))
    hpw (weeksOf pool) 0 k w hw hfil
  refine ⟨q, ?_, hq2⟩
  simp only [selectRandomQuestions]
  rw [if_neg h0]
  by_cases hlt : (((weeksLoop g lvl pool (Int.fdiv c ((weeksOf pool).length : Int))
      (Int.tmod c ((weeksOf pool).length : Int)) (weeksOf pool) 0 k).1.length : Nat) : Int) < c
  · rw [if_pos hlt]
    exact (shuffleArray_perm g _ _).mem_iff.mpr (List.mem_append_left _ hq1)
  · rw [if_neg hlt]
    exact (shuffleArray_perm g _ _).mem_iff.mpr hq1

theorem spec_c5_witness :
    ∃ q ∈ (selectRandomQuestions zeroStream
      [sampleQ "a" Difficulty.beginner 1, sampleQ "b" Difficulty.beginner 2] 2
      InterviewLevel.entry 0).1, weekKey q = 1 :=
  spec_c5 zeroStream [sampleQ "a" Difficulty.beginner 1, sampleQ "b" Difficulty.beginner 2] 2
    InterviewLevel.entry 0 (by decide) (by decide) 1 (by decide)

/-! Exact per-week counts under abundant supply (used for ratio adherence). -/

theorem jsRoundTenth_nonneg {a : Int} (h : 0 ≤ a) : 0 ≤ jsRoundTenth a := by
  rw [jsRoundTenth_ediv]
  omega

theorem countP_take_filter_eq_zero (g : Nat → Nat) (l : List ParsedQuestion) (k n : Nat)
    (d d2 : Difficulty) (hne : d ≠ d2) :
    ((shuffleArray g (l.filter (fun q => decide (q.difficulty = d))) k).1.take n).countP
      (fun q => decide (q.difficulty = d2)) = 0 :=
  List.countP_eq_zero.mpr (fun a hmem => by
    have hx : a ∈ l.filter (fun q => decide (q.difficulty = d)) :=
      (shuffleArray_perm g _ k).mem_iff.mp (List.mem_of_mem_take hmem)
    have hd := (List.mem_filter.mp hx).2
    simp only [decide_eq_true_eq] at hd ⊢
    rw [hd]
    exact fun hcon => hne hcon)

theorem countP_take_filter_eq_length (g : Nat → Nat) (l : List ParsedQuestion) (k n : Nat)
    (d : Difficulty) :
    ((shuffleArray g (l.filter (fun q => decide (q.difficulty = d))) k).1.take n).countP
      (fun q => decide (q.difficulty = d))
      = ((shuffleArray g (l.filter (fun q => decide (q.difficulty = d))) k).1.take n).length :=
  List.countP_eq_length.mpr (fun a hmem => by
    have hx := (shuffleArray_perm g _ k).mem_iff.mp (List.mem_of_mem_take hmem)
    exact (List.mem_filter.mp hx).2)

theorem weekPicks_exact (g : Nat → Nat) (lvl : InterviewLevel) (wq : List ParsedQuestion)
    (wc : Int) (k : Nat) (hwc : 0 ≤ wc)
    (hb : (wc - jsRoundTenth (wc * (intermediateRatioNum lvl : Int))
        - jsRoundTenth (wc * (advancedRatioNum lvl : Int))).toNat
      ≤ (wq.filter (fun q => decide (q.difficulty = Difficulty.beginner))).length)
    (hi : (jsRoundTenth (wc * (intermediateRatioNum lvl : Int))).toNat
      ≤ (wq.filter (fun q => decide (q.difficulty = Difficulty.intermediate))).length)
    (ha : (jsRoundTenth (wc * (advancedRatioNum lvl : Int))).toNat
      ≤ (wq.filter (fun q => decide (q.difficulty = Difficulty.advanced))).length) :
    (weekPicks g lvl wq wc k).1.length = wc.toNat
    ∧ (weekPicks g lvl wq wc k).1.countP (fun q => decide (q.difficulty = Difficulty.advanced))
      = (jsRoundTenth (wc * (advancedRatioNum lvl : Int))).toNat := by
  have hRi : 0 ≤ jsRoundTenth (wc * (intermediateRatioNum lvl : Int)) :=
    jsRoundTenth_nonneg (mul_nonneg hwc (Nat.cast_nonneg _))
  have hRa : 0 ≤ jsRoundTenth (wc * (advancedRatioNum lvl : Int)) :=
    jsRoundTenth_nonneg (mul_nonneg hwc (Nat.cast_nonneg _))
  have hsum := ratio_pair_le lvl wc hwc
  have haT : advancedTargetOf lvl
      (wq.filter (fun q => decide (q.difficulty = Difficulty.advanced))).length wc
      = jsRoundTenth (wc * (advancedRatioNum lvl : Int)) := by
    unfold advancedTargetOf
    omega
  have hiT : intermediateTargetOf lvl
      (wq.filter (fun q => decide (q.difficulty = Difficulty.intermediate))).length wc
      = jsRoundTenth (wc * (intermediateRatioNum lvl : Int)) := by
    unfold intermediateTargetOf
    omega
  have hbT : beginnerTargetOf wc (jsRoundTenth (wc * (intermediateRatioNum lvl : Int)))
      (jsRoundTenth (wc * (advancedRatioNum lvl : Int)))
      = wc - jsRoundTenth (wc * (intermediateRatioNum lvl : Int))
        - jsRoundTenth (wc * (advancedRatioNum lvl : Int)) := by
    unfold beginnerTargetOf
    omega
  constructor
  · simp only [weekPicks, List.length_append, List.length_take, shuffleArray_length, haT, hiT,
      hbT]
    omega
  · simp only [weekPicks, List.countP_append, haT, hiT, hbT]
    rw [countP_take_filter_eq_zero g wq _ _ Difficulty.beginner Difficulty.advanced (by decide),
      countP_take_filter_eq_zero g wq _ _ Difficulty.intermediate Difficulty.advanced
        (by decide),
      countP_take_filter_eq_length g wq _ _ Difficulty.advanced]
    simp only [List.length_take, shuffleArray_length]
    omega

theorem weekSelect_exact_eq (g : Nat → Nat) (lvl : InterviewLevel) (wq : List ParsedQuestion)
    (wc : Int) (k : Nat) (hwc : 0 ≤ wc)
    (hlen : (weekPicks g lvl wq wc k).1.length = wc.toNat) :
    weekSelect g lvl wq wc k = weekPicks g lvl wq wc k := by
  have hncond : ¬ (((weekPicks g lvl wq wc k).1.length : Nat) : Int) < wc := by
    rw [hlen]
    omega
  simp only [weekSelect]
  rw [if_neg hncond]

theorem weeksLoop_exact (g : Nat → Nat) (lvl : InterviewLevel) (qs : List ParsedQuestion)
    (pw r : Int) (hpw : 0 ≤ pw) :
    ∀ (ws : List Nat) (idx k : Nat),
      (∀ (j w : Nat), ws.get? j = some w →
        ((weekQuota pw r (idx + j)
            - jsRoundTenth (weekQuota pw r (idx + j) * (intermediateRatioNum lvl : Int))
            - jsRoundTenth (weekQuota pw r (idx + j) * (advancedRatioNum lvl : Int))).toNat
            ≤ ((qs.filter (fun q => decide (weekKey q = w))).filter
                (fun q => decide (q.difficulty = Difficulty.beginner))).length
          ∧ (jsRoundTenth (weekQuota pw r (idx + j) * (intermediateRatioNum lvl : Int))).toNat
            ≤ ((qs.filter (fun q => decide (weekKey q = w))).filter
                (fun q => decide (q.difficulty = Difficulty.intermediate))).length
          ∧ (jsRoundTenth (weekQuota pw r (idx + j) * (advancedRatioNum lvl : Int))).toNat
            ≤ ((qs.filter (fun q => decide (weekKey q = w))).filter
                (fun q => decide (q.difficulty = Difficulty.advanced))).length)) →
      (weeksLoop g lvl qs pw r ws idx k).1.length = quotaSum pw r ws.length idx
      ∧ (weeksLoop g lvl qs pw r ws idx k).1.countP
          (fun q => decide (q.difficulty = Difficulty.advanced))
        = advSum lvl pw r ws.length idx
  | [], idx, k, _ => by simp [weeksLoop, quotaSum, advSum]
  | w :: ws, idx, k, hab => by
    have hq0 : 0 ≤ weekQuota pw r idx := by
      unfold weekQuota
      split <;> omega
    have h0 := hab 0 w rfl
    rw [Nat.add_zero] at h0
    have hex := weekPicks_exact g lvl (qs.filter (fun q => decide (weekKey q = w)))
      (weekQuota pw r idx) k hq0 h0.1 h0.2.1 h0.2.2
    have hsel := weekSelect_exact_eq g lvl (qs.filter (fun q => decide (weekKey q = w)))
      (weekQuota pw r idx) k hq0 hex.1
    have hab2 : ∀ (j w2 : Nat), ws.get? j = some w2 →
        ((weekQuota pw r (idx + 1 + j)
            - jsRoundTenth (weekQuota pw r (idx + 1 + j) * (intermediateRatioNum lvl : Int))
            - jsRoundTenth (weekQuota pw r (idx + 1 + j) * (advancedRatioNum lvl : Int))).toNat
            ≤ ((qs.filter (fun q => decide (weekKey q = w2))).filter
                (fun q => decide (q.difficulty = Difficulty.beginner))).length
          ∧ (jsRoundTenth (weekQuota pw r (idx + 1 + j)
              * (intermediateRatioNum lvl : Int))).toNat
            ≤ ((qs.filter (fun q => decide (weekKey q = w2))).filter
                (fun q => decide (q.difficulty = Difficulty.intermediate))).length
          ∧ (jsRoundTenth (weekQuota pw r (idx + 1 + j) * (advancedRatioNum lvl : Int))).toNat
            ≤ ((qs.filter (fun q => decide (weekKey q = w2))).filter
                (fun q => decide (q.difficulty = Difficulty.advanced))).length) := by
      intro j w2 hj
      have heq : idx + (j + 1) = idx + 1 + j := by omega
      have := hab (j + 1) w2 hj
      rwa [heq] at this
    have ih := weeksLoop_exact g lvl qs pw r hpw ws (idx + 1)
      (weekSelect g lvl (qs.filter (fun q => decide (weekKey q = w))) (weekQuota pw r idx) k).2
      hab2
    rw [hsel] at ih
    constructor
    · show ((weekSelect g lvl (qs.filter (fun q => decide (weekKey q = w)))
          (weekQuota pw r idx) k).1
        ++ (weeksLoop g lvl qs pw r ws (idx + 1)
          (weekSelect g lvl (qs.filter (fun q => decide (weekKey q = w)))
            (weekQuota pw r idx) k).2).1).length = quotaSum pw r (w :: ws).length idx
      rw [List.length_append, hsel, hex.1, ih.1]
      simp [quotaSum]
    · show ((weekSelect g lvl (qs.filter (fun q => decide (weekKey q = w)))
          (weekQuota pw r idx) k).1
        ++ (weeksLoop g lvl qs pw r ws (idx + 1)
          (weekSelect g lvl (qs.filter (fun q => decide (weekKey q = w)))
            (weekQuota pw r idx) k).2).1).countP
          (fun q => decide (q.difficulty = Difficulty.advanced))
        = advSum lvl pw r (w :: ws).length idx
      rw [List.countP_append, hsel, hex.2, ih.2]
      simp [advSum]

theorem advSum_entry_le (pw r : Int) (hpw : 0 ≤ pw) :
    ∀ (n idx : Nat), advSum InterviewLevel.entry pw r n idx
      ≤ advSum InterviewLevel.experienced pw r n idx
  | 0, _ => le_refl 0
  | n + 1, idx => by
    have hq0 : 0 ≤ weekQuota pw r idx := by
      unfold weekQuota
      split <;> omega
    have hterm : (jsRoundTenth (weekQuota pw r idx
        * (advancedRatioNum InterviewLevel.entry : Int))).toNat
        ≤ (jsRoundTenth (weekQuota pw r idx
          * (advancedRatioNum InterviewLevel.experienced : Int))).toNat := by
      simp only [advancedRatioNum, Nat.cast_one, Nat.cast_ofNat, jsRoundTenth_ediv]
      omega
    have ih := advSum_entry_le pw r hpw n (idx + 1)
    simp only [advSum]
    omega

/-- C6: for a pool abundant in every week and difficulty cell — each
difficulty bucket of each week at least as large as its own computed target
for the week quota q, i.e. the intermediate bucket holds round (q * 0.4), the
advanced bucket holds round (q * 0.5) (which dominates the entry target
round (q * 0.1)), and the beginner bucket holds the remainder
q - round (q * 0.4) - round (q * 0.1) (the larger of the two beginner
targets) — and any count at least zero, the experienced run and the entry run
return results of the same length, and the number of advanced questions in
the experienced result is at least the number in the entry result; hence the
advanced fraction for experienced is at least the one for entry. -/
theorem spec_c6 (g1 g2 : Nat → Nat) (pool : List ParsedQuestion) (c : Int) (k1 k2 : Nat)
    (hc : 0 ≤ c)
    (habund : ∀ (j : Nat) (hj : j < (weeksOf pool).length),
      ((weekQuota (Int.fdiv c ((weeksOf pool).length : Int))
          (Int.tmod c ((weeksOf pool).length : Int)) j
          - jsRoundTenth (weekQuota (Int.fdiv c ((weeksOf pool).length : Int))
            (Int.tmod c ((weeksOf pool).length : Int)) j * 4)
          - jsRoundTenth (weekQuota (Int.fdiv c ((weeksOf pool).length : Int))
            (Int.tmod c ((weeksOf pool).length : Int)) j * 1)).toNat
          ≤ ((pool.filter (fun q => decide (weekKey q = (weeksOf pool).get ⟨j, hj⟩))).filter
              (fun q => decide (q.difficulty = Difficulty.beginner))).length
        ∧ (jsRoundTenth (weekQuota (Int.fdiv c ((weeksOf pool).length : Int))
            (Int.tmod c ((weeksOf pool).length : Int)) j * 4)).toNat
          ≤ ((pool.filter (fun q => decide (weekKey q = (weeksOf pool).get ⟨j, hj⟩))).filter
              (fun q => decide (q.difficulty = Difficulty.intermediate))).length
        ∧ (jsRoundTenth (weekQuota (Int.fdiv c ((weeksOf pool).length : Int))
            (Int.tmod c ((weeksOf pool).length : Int)) j * 5)).toNat
          ≤ ((pool.filter (fun q => decide (weekKey q = (weeksOf pool).get ⟨j, hj⟩))).filter
              (fun q => decide (q.difficulty = Difficulty.advanced))).length)) :
    (selectRandomQuestions g1 pool c InterviewLevel.experienced k1).1.length
      = (selectRandomQuestions g2 pool c InterviewLevel.entry k2).1.length
    ∧ (selectRandomQuestions g2 pool c InterviewLevel.entry k2).1.countP
        (fun q => decide (q.difficulty = Difficulty.advanced))
      ≤ (selectRandomQuestions g1 pool c InterviewLevel.experienced k1).1.countP
        (fun q => decide (q.difficulty = Difficulty.advanced)) := by
  by_cases h0 : (weeksOf pool).length = 0
  · simp only [selectRandomQuestions]
    rw [if_pos h0, if_pos h0]
    exact ⟨rfl, le_refl _⟩
  · have hnpos : 0 < (weeksOf pool).length := Nat.pos_of_ne_zero h0
    have hncast : (0 : Int) < ((weeksOf pool).length : Int) := by exact_mod_cast hnpos
    have hpw0 : 0 ≤ Int.fdiv c ((weeksOf pool).length : Int) := by
      rw [Int.fdiv_eq_ediv c (le_of_lt hncast)]
      exact Int.ediv_nonneg hc (le_of_lt hncast)
    have hquota0 : ∀ j : Nat, 0 ≤ weekQuota (Int.fdiv c ((weeksOf pool).length : Int))
        (Int.tmod c ((weeksOf pool).length : Int)) j := by
      intro j
      unfold weekQuota
      split <;> omega
    have hab0 : ∀ (j w : Nat), (weeksOf pool).get? j = some w →
        ((weekQuota (Int.fdiv c ((weeksOf pool).length : Int))
            (Int.tmod c ((weeksOf pool).length : Int)) j
            - jsRoundTenth (weekQuota (Int.fdiv c ((weeksOf pool).length : Int))
              (Int.tmod c ((weeksOf pool).length : Int)) j * 4)
            - jsRoundTenth (weekQuota (Int.fdiv c ((weeksOf pool).length : Int))
              (Int.tmod c ((weeksOf pool).length : Int)) j * 1)).toNat
            ≤ ((pool.filter (fun q => decide (weekKey q = w))).filter
                (fun q => decide (q.difficulty = Difficulty.beginner))).length
          ∧ (jsRoundTenth (weekQuota (Int.fdiv c ((weeksOf pool).length : Int))
              (Int.tmod c ((weeksOf pool).length : Int)) j * 4)).toNat
            ≤ ((pool.filter (fun q => decide (weekKey q = w))).filter
                (fun q => decide (q.difficulty = Difficulty.intermediate))).length
          ∧ (jsRoundTenth (weekQuota (Int.fdiv c ((weeksOf pool).length : Int))
              (Int.tmod c ((weeksOf pool).length : Int)) j * 5)).toNat
            ≤ ((pool.filter (fun q => decide (weekKey q = w))).filter
                (fun q => decide (q.difficulty = Difficulty.advanced))).length) := by
      intro j w hjw
      obtain ⟨hlt, hget⟩ := List.get?_eq_some.mp hjw
      have hcond := habund j hlt
      rw [hget] at hcond
      exact hcond
    have key : ∀ (lvl : InterviewLevel) (g : Nat → Nat) (k : Nat),
        (∀ (j w : Nat), (weeksOf pool).get? j = some w →
          ((weekQuota (Int.fdiv c ((weeksOf pool).length : Int))
              (Int.tmod c ((weeksOf pool).length : Int)) (0 + j)
              - jsRoundTenth (weekQuota (Int.fdiv c ((weeksOf pool).length : Int))
                (Int.tmod c ((weeksOf pool).length : Int)) (0 + j)
                  * (intermediateRatioNum lvl : Int))
              - jsRoundTenth (weekQuota (Int.fdiv c ((weeksOf pool).length : Int))
                (Int.tmod c ((weeksOf pool).length : Int)) (0 + j)
                  * (advancedRatioNum lvl : Int))).toNat
              ≤ ((pool.filter (fun q => decide (weekKey q = w))).filter
                  (fun q => decide (q.difficulty = Difficulty.beginner))).length
            ∧ (jsRoundTenth (weekQuota (Int.fdiv c ((weeksOf pool).length : Int))
                (Int.tmod c ((weeksOf pool).length : Int)) (0 + j)
                  * (intermediateRatioNum lvl : Int))).toNat
              ≤ ((pool.filter (fun q => decide (weekKey q = w))).filter
                  (fun q => decide (q.difficulty = Difficulty.intermediate))).length
            ∧ (jsRoundTenth (weekQuota (Int.fdiv c ((weeksOf pool).length : Int))
                (Int.tmod c ((weeksOf pool).length : Int)) (0 + j)
                  * (advancedRatioNum lvl : Int))).toNat
              ≤ ((pool.filter (fun q => decide (weekKey q = w))).filter
                  (fun q => decide (q.difficulty = Difficulty.advanced))).length)) →
        (selectRandomQuestions g pool c lvl k).1.length = c.toNat
        ∧ (selectRandomQuestions g pool c lvl k).1.countP
            (fun q => decide (q.difficulty = Difficulty.advanced))
          = advSum lvl (Int.fdiv c ((weeksOf pool).length : Int))
            (Int.tmod c ((weeksOf pool).length : Int)) (weeksOf pool).length 0 := by
      intro lvl g k hab
      have hex := weeksLoop_exact g lvl pool (Int.fdiv c ((weeksOf pool).length : Int))
        (Int.tmod c ((weeksOf pool).length : Int)) hpw0 (weeksOf pool) 0 k hab
      have hlen : (weeksLoop g lvl pool (Int.fdiv c ((weeksOf pool).length : Int))
          (Int.tmod c ((weeksOf pool).length : Int)) (weeksOf pool) 0 k).1.length = c.toNat := by
        rw [hex.1, quotaSum_total c (weeksOf pool).length hc hnpos]
      have hncond : ¬ (((weeksLoop g lvl pool (Int.fdiv c ((weeksOf pool).length : Int))
          (Int.tmod c ((weeksOf pool).length : Int)) (weeksOf pool) 0 k).1.length : Nat) : Int)
          < c := by
        rw [hlen]
        omega
      simp only [selectRandomQuestions]
      rw [if_neg h0, if_neg hncond]
      exact ⟨(shuffleArray_length g _ _).trans hlen,
        ((shuffleArray_perm g _ _).countP_eq _).trans hex.2⟩
    have hexp := key InterviewLevel.experienced g1 k1 (by
      intro j w hjw
      have hcond := hab0 j w hjw
      rw [Nat.zero_add]
      have h4 : ((intermediateRatioNum InterviewLevel.experienced : Nat) : Int) = 4 := by
        norm_num [intermediateRatioNum]
      have h5 : ((advancedRatioNum InterviewLevel.experienced : Nat) : Int) = 5 := by
        norm_num [advancedRatioNum]
      have hmono : jsRoundTenth (weekQuota (Int.fdiv c ((weeksOf pool).length : Int))
          (Int.tmod c ((weeksOf pool).length : Int)) j * 1)
          ≤ jsRoundTenth (weekQuota (Int.fdiv c ((weeksOf pool).length : Int))
            (Int.tmod c ((weeksOf pool).length : Int)) j * 5) := by
        have hq := hquota0 j
        rw [jsRoundTenth_ediv, jsRoundTenth_ediv]
        omega
      refine ⟨?_, ?_, ?_⟩
      · rw [h4, h5]
        have hcond1 := hcond.1
        omega
      · rw [h4]
        exact hcond.2.1
      · rw [h5]
        exact hcond.2.2)
    have hent := key InterviewLevel.entry g2 k2 (by
      intro j w hjw
      have hcond := hab0 j w hjw
      rw [Nat.zero_add]
      have h4 : ((intermediateRatioNum InterviewLevel.entry : Nat) : Int) = 4 := by
        norm_num [intermediateRatioNum]
      have h1 : ((advancedRatioNum InterviewLevel.entry : Nat) : Int) = 1 := by
        norm_num [advancedRatioNum]
      have hmono : jsRoundTenth (weekQuota (Int.fdiv c ((weeksOf pool).length : Int))
          (Int.tmod c ((weeksOf pool).length : Int)) j * 1)
          ≤ jsRoundTenth (weekQuota (Int.fdiv c ((weeksOf pool).length : Int))
            (Int.tmod c ((weeksOf pool).length : Int)) j * 5) := by
        have hq := hquota0 j
        rw [jsRoundTenth_ediv, jsRoundTenth_ediv]
        omega
      refine ⟨?_, ?_, ?_⟩
      · rw [h4, h1]
        exact hcond.1
      · rw [h4]
        exact hcond.2.1
      · rw [h1]
        have hcond5 := hcond.2.2
        omega)
    refine ⟨?_, ?_⟩
    · rw [hexp.1, hent.1]
    · rw [hexp.2, hent.2]
      exact advSum_entry_le (Int.fdiv c ((weeksOf pool).length : Int))
        (Int.tmod c ((weeksOf pool).length : Int)) hpw0 (weeksOf pool).length 0

theorem spec_c6_witness :
    (selectRandomQuestions zeroStream abundantPool 10 InterviewLevel.experienced 0).1.length
      = (selectRandomQuestions zeroStream abundantPool 10 InterviewLevel.entry 0).1.length
    ∧ (selectRandomQuestions zeroStream abundantPool 10 InterviewLevel.entry 0).1.countP
        (fun q => decide (q.difficulty = Difficulty.advanced))
      ≤ (selectRandomQuestions zeroStream abundantPool 10
          InterviewLevel.experienced 0).1.countP
        (fun q => decide (q.difficulty = Difficulty.advanced)) :=
  spec_c6 zeroStream zeroStream abundantPool 10 0 0 (by decide) (by decide)
